import Mathlib

/-!
Verification of the TelegramNews relay core (src/app.py) against its
natural-language specification.

The Python source is shallowly embedded: messages and payloads become
structures, the pure helpers (`_group_messages`, `escape_telegram_usernames`,
`escape_markdown_v2`, `_build_payload`) become Lean functions on `List Char`
and `Int`, and the live-listen handler becomes a pure transition function
taking the fetched window as an explicit argument.  Python strings are
`List Char`; Python integers are `Int`; `None`-able fields are `Option`.
`PATTERN_URL` comes from the repository's `config.py`, which is not part of
the sources here; it is modelled from the spec (see `isSpecial`).
-/

/-- A raw Telegram message as used by src/app.py: `id`, optional
`grouped_id` (album key), `chat_id`, and optional `text` (Telethon's
`message.text` may be `None`). -/
structure Msg where
  id : Int
  grouped_id : Option Int
  chat_id : Int
  text : Option (List Char)
deriving DecidableEq

/-- The JSON payload `_build_payload` sends to the webhook: fields
`channel`, `text`, `caption`, `message_id`, `from_channel_id`. -/
structure Payload where
  channel : List Char
  text : List Char
  caption : List Char
  message_id : Int
  from_channel_id : Int
deriving DecidableEq

/-- The effective grouping key of `src/app.py`: the Python expression
`m.grouped_id or m.id`.  Python truthiness makes both `None` and `0`
fall back to `m.id`. -/
def groupKey (m : Msg) : Int :=
  match m.grouped_id with
  | none => m.id
  | some g => if g = 0 then m.id else g

/-- The key function in the words of the claim: "group_key if present,
else the message's own id".  Used only to compare the claim's wording
with the code's `groupKey` (which also treats `0` as absent). -/
def specKey (m : Msg) : Int :=
  m.grouped_id.getD m.id

/-- Python's `sorted(..., key=lambda message: message.id)` on a list of
messages (a stable ascending sort, matched by insertion sort). -/
def sortById (l : List Msg) : List Msg :=
  List.insertionSort (fun a b => a.id ≤ b.id) l

/-- One step of the accumulation loop of `_group_messages`: append `m` to
the accumulator entry holding its key, creating the entry at the end (in
first-seen position) when the key is new.  The association list carries
both the `grouped` dict and the `order` list of the Python code. -/
def insertMsg (m : Msg) : List (Int × List Msg) → List (Int × List Msg)
  | [] => [(groupKey m, [m])]
  | (k, ms) :: rest =>
    if groupKey m = k then (k, ms ++ [m]) :: rest
    else (k, ms) :: insertMsg m rest

/-- The `for m in messages` loop of `_group_messages`. -/
def addAll (acc : List (Int × List Msg)) : List Msg → List (Int × List Msg)
  | [] => acc
  | m :: rest => addAll (insertMsg m acc) rest

/-- Embedding of `TelegramNewsBot._group_messages`: accumulate messages
per key in first-seen key order, then sort each group by id. -/
def groupMessages (msgs : List Msg) : List (List Msg) :=
  (addAll [] msgs).map fun p => sortById p.2

/-- First-occurrence de-duplication of a key list, skipping keys already
in `seen`.  Reference function for stating first-seen key order. -/
def firstDedupFrom : List Int → List Int → List Int
  | _, [] => []
  | seen, k :: ks =>
    if k ∈ seen then firstDedupFrom seen ks
    else k :: firstDedupFrom (k :: seen) ks

/-- Keys of a message batch in first-seen order, each exactly once. -/
def firstDedup (ks : List Int) : List Int :=
  firstDedupFrom [] ks

/-- Accumulator lookup: the member list stored for key `k` (first entry
with that key), `[]` when the key has no entry. -/
def lookupAcc (k : Int) : List (Int × List Msg) → List Msg
  | [] => []
  | (k2, ms) :: rest => if k2 = k then ms else lookupAcc k rest

/-! ### MessageGrouper lemmas -/

/-- Concatenation of all accumulator member lists, in order. -/
def flatAcc (acc : List (Int × List Msg)) : List Msg :=
  (acc.map Prod.snd).flatten

instance : IsTrans Msg (fun a b => a.id ≤ b.id) :=
  ⟨fun _ _ _ h h2 => le_trans h h2⟩

instance : IsTotal Msg (fun a b => a.id ≤ b.id) :=
  ⟨fun a b => le_total a.id b.id⟩

/-! ### MarkupTranslator embedding -/

/-- The basic Cyrillic letters (U+0410 to U+044F, plus Ё and ё), the
non-ASCII word characters modelled here: Python's Unicode-aware `\w`
matches every one of them. -/
def isCyrillicLetter (c : Char) : Bool :=
  (0x410 ≤ c.toNat && c.toNat ≤ 0x44F) || c.toNat = 0x401 || c.toNat = 0x451

/-- Python's `\w` of the mention regex (a `str` pattern without
`re.ASCII`, hence Unicode-aware), modelled exactly on the character
domain `wModeled`: ASCII word characters (for ASCII characters this is
exactly `\w`) plus the modelled Cyrillic letters.  Outside `wModeled`,
Python's `\w` covers further Unicode word characters this model does
not; theorems about the mention pass therefore carry an explicit
`wModeled` hypothesis on their inputs. -/
def isWordChar (c : Char) : Bool :=
  c.isAlphanum || c = '_' || isCyrillicLetter c

/-- The character domain on which `isWordChar` agrees exactly with
Python's Unicode-aware `\w`: all ASCII characters and the modelled
Cyrillic letters. -/
def wModeled (c : Char) : Bool :=
  c.toNat < 128 || isCyrillicLetter c

/-- The replacer of `escape_telegram_usernames`:
`match.group(0).replace('_', '\\_')`. -/
def escapeUnderscores : List Char → List Char
  | [] => []
  | c :: rest => (if c = '_' then ['\\', '_'] else [c]) ++ escapeUnderscores rest

/-- Fuelled scanner for `re.sub(r'@\w*_\w*', replacer, text)`: at each
`@`, the greedy match takes the maximal word-character run; the run is
rewritten iff it contains an underscore.  `fuel ≥ length` always holds
at the entry point, making the `0` clause dead. -/
def escapeUsernamesF : Nat → List Char → List Char
  | _, [] => []
  | 0, l => l
  | fuel + 1, c :: rest =>
    if c = '@' then
      (if '_' ∈ rest.takeWhile isWordChar
        then '@' :: escapeUnderscores (rest.takeWhile isWordChar)
        else '@' :: rest.takeWhile isWordChar)
        ++ escapeUsernamesF fuel (rest.dropWhile isWordChar)
    else c :: escapeUsernamesF fuel rest

/-- Embedding of `TelegramNewsBot.escape_telegram_usernames`. -/
def escape_telegram_usernames (s : List Char) : List Char :=
  escapeUsernamesF s.length s

/-- Modelled from the spec: `PATTERN_URL` is defined in the repository's
`config.py`, which is not among the given sources.  Spec section 4.2
says every "markup-control character requiring escape in the target
dialect" is prefixed with a backslash; these are the MarkdownV2 control
characters. -/
def specialChars : List Char :=
  ['_', '*', '[', ']', '(', ')', '~', Char.ofNat 96, '>', '#', '+', '-',
   '=', '|', Char.ofNat 123, Char.ofNat 125, '.', '!']

/-- Membership in the modelled `PATTERN_URL` character class. -/
def isSpecial (c : Char) : Bool :=
  specialChars.contains c

/-- Embedding of `re.sub(PATTERN_URL, r'\\\1', s)`: each control
character is prefixed with a backslash (used in `escape_markdown_v2`
and `format_caption`). -/
def escapeSpecial : List Char → List Char
  | [] => []
  | c :: rest => (if isSpecial c then ['\\', c] else [c]) ++ escapeSpecial rest

/-- Embedding of `re.sub(PATTERN_URL, r'\\1', s)` as written in
`_build_payload`: the replacement template `\\1` is a literal backslash
followed by the literal digit `1` (not a group reference), so each
control character is replaced by backslash-one. -/
def mangleTitle : List Char → List Char
  | [] => []
  | c :: rest => (if isSpecial c then ['\\', '1'] else [c]) ++ mangleTitle rest

/-- Split a string at the first occurrence of `stop`, returning the part
before it and the part after it; `none` when `stop` does not occur. -/
def splitUntil (stop : Char) : List Char → Option (List Char × List Char)
  | [] => none
  | c :: rest =>
    if c = stop then some ([], rest)
    else
      match splitUntil stop rest with
      | some (a, b) => some (c :: a, b)
      | none => none

/-- Attempt the link regex `\[([^]]+)]\(([^)]+)\)` with the opening `[`
already consumed: a non-empty label up to the first `]`, then `(`, then
a non-empty URL up to the first `)`. -/
def tryLink (s : List Char) : Option (List Char × List Char × List Char) :=
  match splitUntil ']' s with
  | none => none
  | some (label, r1) =>
    if label = [] then none
    else
      match r1 with
      | '(' :: r2 =>
        match splitUntil ')' r2 with
        | none => none
        | some (url, r3) => if url = [] then none else some (label, url, r3)
      | _ => none

/-- Leftmost match of the link pattern: returns
(text before the match, label, url, text after the match). -/
def findLink : List Char → Option (List Char × List Char × List Char × List Char)
  | [] => none
  | c :: rest =>
    if c = '[' then
      match tryLink rest with
      | some (label, url, r) => some ([], label, url, r)
      | none =>
        match findLink rest with
        | some (b, label, url, r) => some (c :: b, label, url, r)
        | none => none
    else
      match findLink rest with
      | some (b, label, url, r) => some (c :: b, label, url, r)
      | none => none

/-- Fuelled loop over `link_pattern.finditer`: escape the stretches
between links and the labels, copy each URL verbatim. -/
def linkPhaseF : Nat → List Char → List Char
  | 0, s => escapeSpecial s
  | fuel + 1, s =>
    match findLink s with
    | none => escapeSpecial s
    | some (before, label, url, rest) =>
      escapeSpecial before ++
        '[' :: (escapeSpecial label ++ ']' :: '(' :: (url ++ ')' :: linkPhaseF fuel rest))

/-- The link-aware escaping pass of `escape_markdown_v2`. -/
def linkPhase (s : List Char) : List Char :=
  linkPhaseF s.length s

/-- Fuelled enumeration of the (label, url) pairs the link scanner finds,
in match order. -/
def linksF : Nat → List Char → List (List Char × List Char)
  | 0, _ => []
  | fuel + 1, s =>
    match findLink s with
    | none => []
    | some (_, label, url, rest) => (label, url) :: linksF fuel rest

/-- The inline link spans of a string, as the source's regex finds them. -/
def links (s : List Char) : List (List Char × List Char) :=
  linksF s.length s

/-- Non-greedy content search for a style rule `d(.+?)d`: the shortest
non-empty run of non-newline characters followed by the delimiter,
returning (content, text after the closing delimiter). -/
def findClose (d : List Char) : List Char → Option (List Char × List Char)
  | [] => none
  | c :: rest =>
    if c = '\n' then none
    else if List.isPrefixOf d rest then some ([c], rest.drop d.length)
    else
      match findClose d rest with
      | some (content, after) => some (c :: content, after)
      | none => none

/-- Fuelled scanner for one `re.sub` style rule with pattern
`d(.+?)d` and replacement `rep` + content + `rep`. -/
def subEmphF (d rep : List Char) : Nat → List Char → List Char
  | _, [] => []
  | 0, l => l
  | fuel + 1, c :: rest =>
    if List.isPrefixOf d (c :: rest) then
      match findClose d ((c :: rest).drop d.length) with
      | some (content, after) => rep ++ content ++ rep ++ subEmphF d rep fuel after
      | none => c :: subEmphF d rep fuel rest
    else c :: subEmphF d rep fuel rest

/-- One style-formatting rule of `escape_markdown_v2`. -/
def subEmph (d rep s : List Char) : List Char :=
  subEmphF d rep s.length s

/-- Embedding of `TelegramNewsBot.escape_markdown_v2`: mention
protection, link-aware escaping, then the five formatting rules in
source order (bold `**`→`*`, then the four self-reproducing rules). -/
def escape_markdown_v2 (text : List Char) : List Char :=
  subEmph ['|', '|'] ['|', '|']
    (subEmph ['~'] ['~']
      (subEmph ['_'] ['_']
        (subEmph ['_', '_'] ['_', '_']
          (subEmph ['*', '*'] ['*']
            (linkPhase (escape_telegram_usernames text))))))

/-! ### PayloadBuilder and listen handler embedding -/

/-- Decimal rendering of an integer, as Python f-string interpolation of
`first.id` produces it. -/
def intStr (i : Int) : List Char :=
  (toString i).data

/-- Python `channel.lstrip('@')`. -/
def lstripAt (channel : List Char) : List Char :=
  channel.dropWhile (fun c => c = '@')

/-- The attribution line of `_build_payload`'s caption f-string, up to
(and including) the closing parenthesis of the permalink:
`🔁 Переслано из [safe_title](post_link)`.  The title goes through the
`r'\\1'` replacement as written in the source; the permalink uses the
first member's id. -/
def captionHeader (channel : List Char) (msgs : List Msg) (h : msgs ≠ []) : List Char :=
  ("🔁 Переслано из [".data) ++
    mangleTitle (if lstripAt channel = [] then ("Unknown".data) else lstripAt channel) ++
    ("](https://t.me/".data) ++ lstripAt channel ++
    '/' :: intStr (msgs.head h).id ++ [')']

/-- Embedding of `TelegramNewsBot._build_payload` on a non-empty message
list: concatenated member texts (`m.text or ''`), the caption with its
unconditional blank-line separator, and the last member's ids. -/
def buildPayload (channel : List Char) (msgs : List Msg) (h : msgs ≠ []) : Payload :=
  let text := (msgs.map fun m => m.text.getD []).flatten
  { channel := channel
    text := text
    caption := captionHeader channel msgs h ++ '\n' :: '\n' :: escape_markdown_v2 text
    message_id := (msgs.getLast h).id
    from_channel_id := (msgs.getLast h).chat_id }

/-- Embedding of `TelegramNewsBot.format_caption` (present in the source
but never called on the payload path): it uses the correct `r'\\\1'`
escaping and omits the body section when `message.text` is falsy. -/
def format_caption (message : Msg) (channel : List Char) : List Char :=
  let source_title := if channel = [] then ("Unknown".data) else lstripAt channel
  let base :=
    if channel ≠ [] ∧ lstripAt channel ≠ [] then
      ("🔁 Переслано из [".data) ++ escapeSpecial source_title ++
        ("](https://t.me/".data) ++ lstripAt channel ++
        '/' :: intStr message.id ++ [')']
    else ("🔁 Переслано из ".data) ++ escapeSpecial source_title
  match message.text with
  | none => base
  | some t => if t = [] then base else base ++ '\n' :: '\n' :: escape_markdown_v2 t

/-- One incoming `events.NewMessage` occurrence as the handler sees it:
the event message, the chat's display identity, and the recent window
the handler would re-fetch for that chat (external input, made an
explicit argument of the pure transition). -/
structure Event where
  channel : List Char
  msg : Msg
  window : List Msg
deriving DecidableEq

/-- The `for group in self._group_messages(msgs)` loop of the handler:
first group whose key (`group[0].grouped_id or group[0].id`) equals the
event's key, returned as head and tail so non-emptiness is manifest.
The grouper never emits an empty group; an empty group is skipped. -/
def findGroup (gid : Int) : List (List Msg) → Option (Msg × List Msg)
  | [] => none
  | [] :: rest => findGroup gid rest
  | (m :: ms) :: rest =>
    if groupKey m = gid then some (m, ms) else findGroup gid rest

/-- Embedding of the live-listen `handler` in
`listen_for_new_messages` as a pure transition: given the dedup state
(`self._sent_group_ids`) and an event, it returns the delivery made (if
any) and the new dedup state.  The early `return` when the key is
already marked happens before the window fetch, so the result there is
independent of `e.window`. -/
def handleEvent (sent : List Int) (e : Event) : Option Payload × List Int :=
  let gid := groupKey e.msg
  if gid ∈ sent then (none, sent)
  else
    match findGroup gid (groupMessages e.window) with
    | none => (none, sent)
    | some (m, ms) =>
      (some (buildPayload e.channel (m :: ms) (List.cons_ne_nil m ms)), gid :: sent)

/-- A whole listen session from a given dedup state: the deliveries
(one `Option Payload` per event, in order), threading the dedup state. -/
def processEvents (sent : List Int) : List Event → List (Option Payload)
  | [] => []
  | e :: rest =>
    (handleEvent sent e).1 :: processEvents (handleEvent sent e).2 rest

/-- Fuelled scanner deciding that no `@`-mention run contains an
underscore, mirroring the positions `escape_telegram_usernames`
rewrites: `true` iff the mention pass leaves the string unchanged. -/
def mentionFreeF : Nat → List Char → Bool
  | _, [] => true
  | 0, _ => true
  | fuel + 1, c :: rest =>
    if c = '@' then
      if '_' ∈ rest.takeWhile isWordChar then false
      else mentionFreeF fuel (rest.dropWhile isWordChar)
    else mentionFreeF fuel rest

/-- No `@`-mention run of `s` contains an underscore (with runs taken
by `isWordChar`; faithful to the source's Unicode `\w` exactly on
strings whose characters all satisfy `wModeled`). -/
def mentionFree (s : List Char) : Bool :=
  mentionFreeF s.length s

/-- Scanner deciding that every occurrence of a markup-control character
is preceded by a backslash: a backslash consumes the following character
as escaped, any other character must be non-special. -/
def noBareSpecial : List Char → Bool
  | [] => true
  | '\\' :: _ :: rest => noBareSpecial rest
  | c :: rest => !isSpecial c && noBareSpecial rest

/-- Does a style rule `d(.+?)d` match anywhere in the string? -/
def hasSpan (d : List Char) : List Char → Bool
  | [] => false
  | c :: rest =>
    (List.isPrefixOf d (c :: rest) && (findClose d ((c :: rest).drop d.length)).isSome)
      || hasSpan d rest

/-- The claim's input class for idempotence, in the spec's words: an
already fully escaped string (every markup-control character is
backslash-escaped) with no inline link span and no style-delimiter
span. -/
def fullyEscapedNoSpans (s : List Char) : Bool :=
  noBareSpecial s && (findLink s).isNone &&
    !hasSpan ['*', '*'] s && !hasSpan ['_', '_'] s && !hasSpan ['_'] s &&
    !hasSpan ['~'] s && !hasSpan ['|', '|'] s

/-- Relation "t is obtained from s by deleting some `*` characters";
used to show the bold rewriting rule only ever removes stars. -/
inductive DelStar : List Char → List Char → Prop
  | nil : DelStar [] []
  | keep (c : Char) {s t : List Char} : DelStar s t → DelStar (c :: s) (c :: t)
  | drop {s t : List Char} : DelStar s t → DelStar ('*' :: s) t

/-- First part of the two-message album scenario (group key 55). -/
def partA : Msg :=
  ⟨11, some 55, 777, some ("Part A".data)⟩

/-- Second part of the two-message album scenario (group key 55). -/
def partB : Msg :=
  ⟨12, some 55, 777, some ("Part B".data)⟩

/-- Two messages whose `grouped_id` is the integer `0`: present per the
data model, but falsy for the code's `or`. -/
def zeroKeyMsgs : List Msg :=
  [⟨1, some 0, 7, none⟩, ⟨2, some 0, 7, none⟩]

/-- A message with absent text, for the empty-caption-body scenario. -/
def emptyTextMsg : Msg :=
  ⟨10, none, 777, none⟩

/-- A live event whose key (55) is assumed already marked. -/
def dupEvent : Event :=
  ⟨("newsfeed".data), partA, []⟩

/-- A live event (key 99) whose re-fetched window groups only to key 55. -/
def oddEvent : Event :=
  ⟨("newsfeed".data), ⟨99, none, 7, none⟩, [partA]⟩

/-- A live event (key 99) with an empty re-fetched window. -/
def missEvent : Event :=
  ⟨("newsfeed".data), ⟨99, none, 7, none⟩, []⟩

/-- A link whose URL is a bold span. -/
def boldUrlText : List Char :=
  ("[x](**y**)".data)

/-- A plain link with a star-free URL. -/
def plainLinkText : List Char :=
  ("[ab](cd)".data)

/-- The escaped-underscore string: fully escaped, no markup spans. -/
def escapedUnderscore : List Char :=
  ['\\', '_']

/-- A string with no markup-control characters at all. -/
def plainText : List Char :=
  ("hello @world".data)

/-! ### Lemmas and claim theorems -/

theorem insertMsg_map_fst (m : Msg) (acc : List (Int × List Msg)) :
    (insertMsg m acc).map Prod.fst =
      if groupKey m ∈ acc.map Prod.fst then acc.map Prod.fst
      else acc.map Prod.fst ++ [groupKey m] := by
  induction acc with
  | nil => simp [insertMsg]
  | cons p rest ih =>
    obtain ⟨k, ms⟩ := p
    by_cases h : groupKey m = k
    · subst h
      simp [insertMsg]
    · rw [insertMsg, if_neg h, List.map_cons, List.map_cons, ih]
      by_cases h2 : groupKey m ∈ rest.map Prod.fst
      · rw [if_pos h2, if_pos (by simp [h2])]
      · rw [if_neg h2, if_neg (by simp [h2, h]), List.cons_append]

theorem lookupAcc_insertMsg (m : Msg) (k : Int) (acc : List (Int × List Msg)) :
    lookupAcc k (insertMsg m acc) =
      lookupAcc k acc ++ (if groupKey m = k then [m] else []) := by
  induction acc with
  | nil => by_cases h : groupKey m = k <;> simp [insertMsg, lookupAcc, h]
  | cons p rest ih =>
    obtain ⟨k2, ms⟩ := p
    by_cases h : groupKey m = k2
    · subst h
      by_cases h2 : groupKey m = k
      · subst h2
        simp [insertMsg, lookupAcc]
      · have h3 : ¬ (groupKey m = k) := h2
        simp [insertMsg, lookupAcc, h3]
    · by_cases h2 : k2 = k
      · subst h2
        simp [insertMsg, lookupAcc, h]
      · simp [insertMsg, lookupAcc, h, h2, ih]

theorem lookupAcc_addAll (msgs : List Msg) :
    ∀ (acc : List (Int × List Msg)) (k : Int),
      lookupAcc k (addAll acc msgs) =
        lookupAcc k acc ++ msgs.filter (fun m => groupKey m = k) := by
  induction msgs with
  | nil => intro acc k; simp [addAll]
  | cons m rest ih =>
    intro acc k
    rw [addAll, ih, lookupAcc_insertMsg]
    by_cases h : groupKey m = k
    · simp [List.filter_cons, h, List.append_assoc]
    · simp [List.filter_cons, h]

theorem firstDedupFrom_congr :
    ∀ (l : List Int) (s1 s2 : List Int),
      (∀ x, x ∈ s1 ↔ x ∈ s2) →
      firstDedupFrom s1 l = firstDedupFrom s2 l := by
  intro l
  induction l with
  | nil => intro s1 s2 _; rfl
  | cons k ks ih =>
    intro s1 s2 h
    rw [firstDedupFrom, firstDedupFrom]
    by_cases h2 : k ∈ s2
    · rw [if_pos ((h k).2 h2), if_pos h2]
      exact ih s1 s2 h
    · rw [if_neg (fun hx => h2 ((h k).1 hx)), if_neg h2]
      rw [ih (k :: s1) (k :: s2) (by intro x; simp [h x])]

theorem addAll_map_fst (msgs : List Msg) :
    ∀ acc : List (Int × List Msg),
      (addAll acc msgs).map Prod.fst =
        acc.map Prod.fst ++
          firstDedupFrom (acc.map Prod.fst) (msgs.map groupKey) := by
  induction msgs with
  | nil => intro acc; simp [addAll, firstDedupFrom]
  | cons m rest ih =>
    intro acc
    rw [addAll, ih, insertMsg_map_fst, List.map_cons, firstDedupFrom]
    by_cases h : groupKey m ∈ acc.map Prod.fst
    · rw [if_pos h, if_pos h]
    · rw [if_neg h, if_neg h]
      rw [firstDedupFrom_congr (rest.map groupKey)
            (acc.map Prod.fst ++ [groupKey m]) (groupKey m :: acc.map Prod.fst)
            (by intro x; simp [or_comm])]
      simp [List.append_assoc]

theorem not_mem_seen_of_mem_firstDedupFrom :
    ∀ (l seen : List Int) (x : Int),
      x ∈ firstDedupFrom seen l → x ∉ seen := by
  intro l
  induction l with
  | nil => intro seen x h; simp [firstDedupFrom] at h
  | cons k ks ih =>
    intro seen x h
    rw [firstDedupFrom] at h
    by_cases h2 : k ∈ seen
    · rw [if_pos h2] at h
      exact ih seen x h
    · rw [if_neg h2] at h
      rcases List.mem_cons.1 h with h3 | h3
      · subst h3
        exact h2
      · have := ih (k :: seen) x h3
        exact fun hx => this (List.mem_cons_of_mem _ hx)

theorem nodup_firstDedupFrom :
    ∀ (l seen : List Int), (firstDedupFrom seen l).Nodup := by
  intro l
  induction l with
  | nil => intro seen; simp [firstDedupFrom]
  | cons k ks ih =>
    intro seen
    rw [firstDedupFrom]
    by_cases h2 : k ∈ seen
    · rw [if_pos h2]; exact ih seen
    · rw [if_neg h2]
      refine List.nodup_cons.2 ⟨fun hmem => ?_, ih (k :: seen)⟩
      exact not_mem_seen_of_mem_firstDedupFrom ks (k :: seen) k hmem
        (List.mem_cons_self _ _)

theorem assoc_ext :
    ∀ (K : List Int) (A : List (Int × List Msg)) (f : Int → List Msg),
      A.map Prod.fst = K → K.Nodup → (∀ k ∈ K, lookupAcc k A = f k) →
      A = K.map (fun k => (k, f k)) := by
  intro K
  induction K with
  | nil =>
    intro A f hmap _ _
    simpa using List.map_eq_nil_iff.1 hmap
  | cons k K2 ih =>
    intro A f hmap hnd hlook
    match A with
    | [] => simp at hmap
    | (k1, ms) :: A2 =>
      have hk1 : k1 = k := by simpa using congrArg (fun l => l.headD 0) hmap
      subst hk1
      have hms : ms = f k1 := by
        have := hlook k1 (List.mem_cons_self _ _)
        simpa [lookupAcc] using this
      have hA2 : A2 = K2.map (fun k => (k, f k)) := by
        refine ih A2 f (by simpa using hmap) (List.nodup_cons.1 hnd).2 ?_
        intro k2 hk2
        have hne : ¬ (k2 = k1) := fun he => (List.nodup_cons.1 hnd).1 (he ▸ hk2)
        have hne2 : ¬ (k1 = k2) := fun he => hne he.symm
        have := hlook k2 (List.mem_cons_of_mem _ hk2)
        simpa [lookupAcc, hne2] using this
      simp [hms, hA2]

/-- Structural characterisation of `_group_messages`: one group per
distinct effective key in first-seen key order, each group holding the
key's messages in arrival order, sorted by id. -/
theorem groupMessages_eq (msgs : List Msg) :
    groupMessages msgs =
      (firstDedup (msgs.map groupKey)).map
        (fun k => sortById (msgs.filter (fun m => groupKey m = k))) := by
  have h1 : addAll [] msgs =
      (firstDedup (msgs.map groupKey)).map
        (fun k => (k, msgs.filter (fun m => groupKey m = k))) := by
    refine assoc_ext _ _ _ ?_ (nodup_firstDedupFrom _ _) ?_
    · have := addAll_map_fst msgs []
      simpa [firstDedup] using this
    · intro k _
      have := lookupAcc_addAll msgs [] k
      simpa [lookupAcc] using this
  rw [groupMessages, h1, List.map_map]
  rfl

theorem perm_flatAcc_insertMsg (m : Msg) (acc : List (Int × List Msg)) :
    List.Perm (flatAcc (insertMsg m acc)) (flatAcc acc ++ [m]) := by
  induction acc with
  | nil => simp [insertMsg, flatAcc]
  | cons p rest ih =>
    obtain ⟨k, ms⟩ := p
    by_cases h : groupKey m = k
    · subst h
      rw [insertMsg, if_pos rfl]
      simp only [flatAcc, List.map_cons, List.flatten_cons, List.append_assoc]
      exact List.Perm.append_left ms
        (@List.perm_append_comm _ [m] (flatAcc rest))
    · rw [insertMsg, if_neg h]
      simp only [flatAcc, List.map_cons, List.flatten_cons, List.append_assoc]
      exact List.Perm.append_left ms ih

theorem perm_flatAcc_addAll (msgs : List Msg) :
    ∀ acc : List (Int × List Msg),
      List.Perm (flatAcc (addAll acc msgs)) (flatAcc acc ++ msgs) := by
  induction msgs with
  | nil => intro acc; simp [addAll]
  | cons m rest ih =>
    intro acc
    rw [addAll]
    refine (ih (insertMsg m acc)).trans ?_
    have h1 := (perm_flatAcc_insertMsg m acc).append_right rest
    refine h1.trans ?_
    simp [List.append_assoc]

theorem perm_flatten_sorted (acc : List (Int × List Msg)) :
    List.Perm ((acc.map fun p => sortById p.2).flatten) (flatAcc acc) := by
  induction acc with
  | nil => simp [flatAcc]
  | cons p rest ih =>
    simp only [flatAcc, List.map_cons, List.flatten_cons]
    exact (List.perm_insertionSort _ p.2).append ih

/-- Partition property: flattening the grouper's output is a permutation
of the input batch. -/
theorem perm_groupMessages_flatten (msgs : List Msg) :
    List.Perm (groupMessages msgs).flatten msgs := by
  have h1 := perm_flatten_sorted (addAll [] msgs)
  have h2 := perm_flatAcc_addAll msgs []
  simp only [flatAcc, List.map_nil, List.flatten_nil, List.nil_append] at h2
  exact (h1.trans h2)

theorem sorted_sortById (l : List Msg) :
    List.Sorted (fun a b => a.id ≤ b.id) (sortById l) :=
  List.sorted_insertionSort _ l

theorem perm_sortById (l : List Msg) : List.Perm (sortById l) l :=
  List.perm_insertionSort _ l

/-- Members of every emitted group carry strictly ascending ids, as soon
as the input ids are distinct. -/
theorem groupMessages_strict_sorted (msgs : List Msg)
    (hnd : (msgs.map Msg.id).Nodup) :
    ∀ g ∈ groupMessages msgs, List.Sorted (· < ·) (g.map Msg.id) := by
  intro g hg
  rw [groupMessages_eq] at hg
  obtain ⟨k, _, hgk⟩ := List.mem_map.1 hg
  subst hgk
  have hsorted : List.Sorted (fun a b => a.id ≤ b.id)
      (sortById (msgs.filter (fun m => groupKey m = k))) := sorted_sortById _
  have hsub : List.Sublist
      ((msgs.filter (fun m => groupKey m = k)).map Msg.id) (msgs.map Msg.id) :=
    (List.filter_sublist msgs).map Msg.id
  have hnd2 : ((msgs.filter (fun m => groupKey m = k)).map Msg.id).Nodup :=
    hnd.sublist hsub
  have hnd3 : ((sortById (msgs.filter (fun m => groupKey m = k))).map Msg.id).Nodup :=
    (((perm_sortById _).map Msg.id).nodup_iff).2 hnd2
  have hle : List.Pairwise (· ≤ ·)
      ((sortById (msgs.filter (fun m => groupKey m = k))).map Msg.id) :=
    (List.pairwise_map).2 hsorted
  have := hle.and hnd3
  exact this.imp (fun h => lt_of_le_of_ne h.1 h.2)

/-! ### Listen-handler lemmas -/

theorem handleEvent_of_mem (sent : List Int) (e : Event)
    (h : groupKey e.msg ∈ sent) : handleEvent sent e = (none, sent) := by
  simp [handleEvent, h]

theorem handleEvent_mem_mono (sent : List Int) (e : Event) (k : Int)
    (h : k ∈ sent) : k ∈ (handleEvent sent e).2 := by
  by_cases h2 : groupKey e.msg ∈ sent
  · simpa [handleEvent, h2] using h
  · cases hfind : findGroup (groupKey e.msg) (groupMessages e.window) with
    | none => simpa [handleEvent, h2, hfind] using h
    | some p =>
      obtain ⟨m, ms⟩ := p
      simp [handleEvent, h2, hfind]
      exact Or.inr h

theorem findGroup_eq_none (gid : Int) (groups : List (List Msg))
    (h : ∀ g ∈ groups, ∀ m ms, g = m :: ms → groupKey m ≠ gid) :
    findGroup gid groups = none := by
  induction groups with
  | nil => rfl
  | cons g rest ih =>
    match g with
    | [] =>
      rw [findGroup]
      exact ih fun g2 hg2 m ms he => h g2 (List.mem_cons_of_mem _ hg2) m ms he
    | m :: ms =>
      rw [findGroup, if_neg (h (m :: ms) (List.mem_cons_self _ _) m ms rfl)]
      exact ih fun g2 hg2 m2 ms2 he => h g2 (List.mem_cons_of_mem _ hg2) m2 ms2 he

/-- Claim C1: during a live listen session, once a group key is in the
dedup set, every event carrying that key is a no-op — the handler
returns `(none, sent)` for any window (so no fetch result matters and
no delivery happens), and in a whole session every event whose key is
already marked at session start produces no delivery. -/
theorem dedup_marked_key_never_delivers :
    (∀ (sent : List Int) (e : Event), groupKey e.msg ∈ sent →
      handleEvent sent e = (none, sent)) ∧
    (∀ (evs : List Event) (sent : List Int) (k : Int), k ∈ sent →
      ∀ (i : Nat) (hi : i < evs.length) (hi2 : i < (processEvents sent evs).length),
        groupKey (evs.get ⟨i, hi⟩).msg = k →
        (processEvents sent evs).get ⟨i, hi2⟩ = none) := by
  refine ⟨fun sent e h => handleEvent_of_mem sent e h, ?_⟩
  intro evs
  induction evs with
  | nil => intro sent k _ i hi; exact absurd hi (by simp)
  | cons e rest ih =>
    intro sent k hk i hi hi2 hkey
    match i with
    | 0 =>
      have he : groupKey e.msg ∈ sent := by
        simpa using hkey ▸ hk
      simp only [processEvents, List.get]
      rw [handleEvent_of_mem sent e he]
    | j + 1 =>
      have hk2 : k ∈ (handleEvent sent e).2 := handleEvent_mem_mono sent e k hk
      have hi3 : j < rest.length := by simpa using hi
      have hi4 : j < (processEvents (handleEvent sent e).2 rest).length := by
        simpa [processEvents] using hi2
      have := ih (handleEvent sent e).2 k hk2 j hi3 hi4 (by simpa using hkey)
      simpa [processEvents] using this

/-- Witness for C1: with key 55 already marked, the session made of one
event for key 55 delivers nothing. -/
theorem dedup_marked_key_never_delivers_witness :
    (processEvents [55] [dupEvent]).get ⟨0, by decide⟩ = none :=
  dedup_marked_key_never_delivers.2 [dupEvent] [55] 55 (by decide) 0 (by decide)
    (by decide) (by decide)

/-- Claim C7: when no group of the re-fetched window carries the event's
key, the handler delivers nothing and leaves the dedup state unchanged
(a silent return, not an error — the transition is total). -/
theorem missing_group_no_delivery (sent : List Int) (e : Event)
    (h : ∀ g ∈ groupMessages e.window, ∀ m ms, g = m :: ms →
      groupKey m ≠ groupKey e.msg) :
    handleEvent sent e = (none, sent) := by
  by_cases h2 : groupKey e.msg ∈ sent
  · exact handleEvent_of_mem sent e h2
  · rw [handleEvent]
    simp only [h2, if_neg, if_false]
    rw [findGroup_eq_none _ _ h]

/-- Witness for C7: an event for key 99 whose window only holds the
key-55 album part is dropped silently. -/
theorem missing_group_no_delivery_witness :
    handleEvent [] oddEvent = (none, []) := by
  refine missing_group_no_delivery [] oddEvent ?_
  have hgm : groupMessages oddEvent.window = [[partA]] := by decide
  rw [hgm]
  intro g hg m ms he
  have hg2 : g = [partA] := by simpa using hg
  subst hg2
  cases he
  decide

/-- Claim C10: a key enters the dedup set only together with a delivery
of its own group — any key of the post-state is either an old key or
the event's key accompanying a delivery; in the not-found edge case the
key stays unmarked; and an unmarked key whose group is found is
delivered and marked. -/
theorem mark_only_after_delivery :
    (∀ (sent : List Int) (e : Event) (k : Int), k ∈ (handleEvent sent e).2 →
      k ∈ sent ∨ ((handleEvent sent e).1 ≠ none ∧ k = groupKey e.msg)) ∧
    (∀ (sent : List Int) (e : Event), groupKey e.msg ∉ sent →
      findGroup (groupKey e.msg) (groupMessages e.window) = none →
      handleEvent sent e = (none, sent)) ∧
    (∀ (sent : List Int) (e : Event) (m : Msg) (ms : List Msg),
      groupKey e.msg ∉ sent →
      findGroup (groupKey e.msg) (groupMessages e.window) = some (m, ms) →
      handleEvent sent e =
        (some (buildPayload e.channel (m :: ms) (List.cons_ne_nil m ms)),
          groupKey e.msg :: sent)) := by
  refine ⟨?_, ?_, ?_⟩
  · intro sent e k hk
    by_cases h2 : groupKey e.msg ∈ sent
    · rw [handleEvent_of_mem sent e h2] at hk
      exact Or.inl hk
    · cases hfind : findGroup (groupKey e.msg) (groupMessages e.window) with
      | none => simp only [handleEvent, if_neg h2, hfind] at hk; exact Or.inl hk
      | some p =>
        obtain ⟨m, ms⟩ := p
        simp only [handleEvent, if_neg h2, hfind] at hk
        rcases List.mem_cons.1 hk with h3 | h3
        · exact Or.inr ⟨by simp [handleEvent, h2, hfind], h3⟩
        · exact Or.inl h3
  · intro sent e h2 hfind
    simp [handleEvent, h2, hfind]
  · intro sent e m ms h2 hfind
    simp [handleEvent, h2, hfind]

/-- Witness for C10: an unmarked key not found in the (empty) window is
left unmarked and nothing is delivered. -/
theorem mark_only_after_delivery_witness :
    handleEvent [] missEvent = (none, []) :=
  mark_only_after_delivery.2.1 [] missEvent (by decide) (by decide)

/-! ### Grouper and payload claim theorems -/

theorem firstDedupFrom_subset :
    ∀ (l seen : List Int) (x : Int), x ∈ firstDedupFrom seen l → x ∈ l := by
  intro l
  induction l with
  | nil => intro seen x h; simp [firstDedupFrom] at h
  | cons k ks ih =>
    intro seen x h
    rw [firstDedupFrom] at h
    by_cases hk : k ∈ seen
    · rw [if_pos hk] at h
      exact List.mem_cons_of_mem _ (ih seen x h)
    · rw [if_neg hk] at h
      rcases List.mem_cons.1 h with h1 | h1
      · exact h1 ▸ List.mem_cons_self _ _
      · exact List.mem_cons_of_mem _ (ih (k :: seen) x h1)

theorem mem_firstDedupFrom_of_mem :
    ∀ (l seen : List Int) (x : Int), x ∈ l → x ∉ seen →
      x ∈ firstDedupFrom seen l := by
  intro l
  induction l with
  | nil => intro seen x h _; simp at h
  | cons k ks ih =>
    intro seen x hx hns
    rw [firstDedupFrom]
    by_cases hk : k ∈ seen
    · rw [if_pos hk]
      rcases List.mem_cons.1 hx with h1 | h1
      · exact absurd (h1 ▸ hk) hns
      · exact ih seen x h1 hns
    · rw [if_neg hk]
      by_cases hxk : x = k
      · exact hxk ▸ List.mem_cons_self _ _
      · rcases List.mem_cons.1 hx with h1 | h1
        · exact absurd h1 hxk
        · refine List.mem_cons_of_mem _ (ih (k :: seen) x h1 ?_)
          intro hmem
          rcases List.mem_cons.1 hmem with h2 | h2
          · exact hxk h2
          · exact hns h2

theorem countP_eq_one_of_nodup_mem :
    ∀ (K : List Int) (a : Int), K.Nodup → a ∈ K →
      K.countP (fun k => decide (a = k)) = 1 := by
  intro K
  induction K with
  | nil => intro a _ h; simp at h
  | cons k ks ih =>
    intro a hnd ha
    rcases List.mem_cons.1 ha with h1 | h1
    · subst h1
      rw [List.countP_cons]
      have h0 : ks.countP (fun k => decide (a = k)) = 0 := by
        refine List.countP_eq_zero.2 ?_
        intro b hb
        simp only [decide_eq_true_eq]
        exact fun he => (List.nodup_cons.1 hnd).1 (he ▸ hb)
      simp [h0]
    · have hk : ¬ (a = k) := fun he => (List.nodup_cons.1 hnd).1 (he ▸ h1)
      rw [List.countP_cons]
      simp [hk, ih a (List.nodup_cons.1 hnd).2 h1]

theorem groupMessages_mem_count (msgs : List Msg) (m : Msg) (hm : m ∈ msgs) :
    (groupMessages msgs).countP (fun g => decide (m ∈ g)) = 1 := by
  rw [groupMessages_eq, List.countP_map]
  have hcongr : ∀ k ∈ firstDedup (msgs.map groupKey),
      ((fun g => decide (m ∈ g)) ∘
        fun k => sortById (msgs.filter (fun m2 => groupKey m2 = k))) k =
        (fun k => decide (groupKey m = k)) k := by
    intro k _
    simp only [Function.comp]
    by_cases h : groupKey m = k
    · simp [sortById, List.mem_filter, hm, h]
    · simp [sortById, List.mem_filter, h]
  rw [List.countP_congr (fun x hx => by rw [hcongr x hx])]
  refine countP_eq_one_of_nodup_mem _ _ (nodup_firstDedupFrom _ _) ?_
  exact mem_firstDedupFrom_of_mem _ [] _ (List.mem_map_of_mem groupKey hm) (by simp)

theorem groupMessages_nonempty_sharekey (msgs : List Msg) :
    ∀ g ∈ groupMessages msgs, g ≠ [] ∧ ∃ k : Int, ∀ m ∈ g, groupKey m = k := by
  intro g hg
  rw [groupMessages_eq] at hg
  obtain ⟨k, hk, hgk⟩ := List.mem_map.1 hg
  constructor
  · have hk2 : k ∈ msgs.map groupKey := firstDedupFrom_subset _ [] k hk
    obtain ⟨m, hm, hkm⟩ := List.mem_map.1 hk2
    intro hnil
    have hmem : m ∈ sortById (msgs.filter fun m2 => groupKey m2 = k) := by
      simp [sortById, List.mem_filter, hm, hkm]
    rw [hgk, hnil] at hmem
    simp at hmem
  · refine ⟨k, fun m hmg => ?_⟩
    rw [← hgk] at hmg
    simp only [sortById, List.mem_insertionSort, List.mem_filter,
      decide_eq_true_eq] at hmg
    exact hmg.2

/-- Claim C2, counterexample to the claim as stated: with two messages
whose `grouped_id` is the present integer `0`, the claim's key function
("group_key if present, else id") yields one distinct key, but the code
(`m.grouped_id or m.id`, where `0` is falsy) produces two logical
posts, not one. -/
theorem grouper_partition_cex :
    (firstDedup (zeroKeyMsgs.map specKey)).length = 1 ∧
      (groupMessages zeroKeyMsgs).length ≠ 1 := by
  decide

/-- Claim C2 as amended: with the effective key of the code (group_key
when present and nonzero, else the message id), the grouper output is a
partition of the input, stated piecewise in the claim's own terms:
flattening the output permutes the input batch; every input message
lies in exactly one emitted post; there is exactly one post per
distinct effective key, in first-seen key order with members the key's
messages sorted by id (the characterisation equation); every emitted
post is non-empty and all its members share one key; and when the
input ids are distinct, members are strictly ascending by id. -/
theorem grouper_partition_amended (msgs : List Msg) :
    groupMessages msgs =
      (firstDedup (msgs.map groupKey)).map
        (fun k => sortById (msgs.filter (fun m => groupKey m = k))) ∧
    List.Perm (groupMessages msgs).flatten msgs ∧
    (∀ m ∈ msgs, (groupMessages msgs).countP (fun g => decide (m ∈ g)) = 1) ∧
    (groupMessages msgs).length = (firstDedup (msgs.map groupKey)).length ∧
    (∀ g ∈ groupMessages msgs, g ≠ [] ∧ ∃ k : Int, ∀ m ∈ g, groupKey m = k) ∧
    ((msgs.map Msg.id).Nodup →
      ∀ g ∈ groupMessages msgs, List.Sorted (· < ·) (g.map Msg.id)) :=
  ⟨groupMessages_eq msgs, perm_groupMessages_flatten msgs,
    fun m hm => groupMessages_mem_count msgs m hm,
    by rw [groupMessages_eq]; simp,
    groupMessages_nonempty_sharekey msgs,
    groupMessages_strict_sorted msgs⟩

/-- Witness for C2 (amended): on the reversed two-part album the
partition holds, partA lies in exactly one group, and the single
emitted group is strictly ascending. -/
theorem grouper_partition_witness :
    List.Perm (groupMessages [partB, partA]).flatten [partB, partA] ∧
      (groupMessages [partB, partA]).countP (fun g => decide (partA ∈ g)) = 1 ∧
      ∀ g ∈ groupMessages [partB, partA], List.Sorted (· < ·) (g.map Msg.id) :=
  ⟨(grouper_partition_amended [partB, partA]).2.1,
    (grouper_partition_amended [partB, partA]).2.2.1 partA (by decide),
    (grouper_partition_amended [partB, partA]).2.2.2.2.2 (by decide)⟩

/-- Claim C5: for any group emitted by the grouper (from any arrival
order), the payload's `message_id` and `from_channel_id` are the id and
chat id of the last member after sorting the members by id (sorting the
already-sorted group is the identity, so the last member is the maximal
id). -/
theorem payload_last_member_ids (channel : List Char) (msgs : List Msg)
    (g : List Msg) (hg : g ∈ groupMessages msgs) (hne : g ≠ []) :
    ∃ lastm : Msg, (sortById g).getLast? = some lastm ∧
      (buildPayload channel g hne).message_id = lastm.id ∧
      (buildPayload channel g hne).from_channel_id = lastm.chat_id := by
  have hsorted : List.Sorted (fun a b => a.id ≤ b.id) g := by
    rw [groupMessages_eq] at hg
    obtain ⟨k, _, hgk⟩ := List.mem_map.1 hg
    rw [← hgk]
    exact sorted_sortById _
  have heq : sortById g = g := hsorted.insertionSort_eq
  refine ⟨g.getLast hne, ?_, rfl, rfl⟩
  rw [heq]
  exact List.getLast?_eq_getLast_of_ne_nil hne

/-- Witness for C5: the album arriving as [partB, partA] is grouped to
[partA, partB]; the payload is built from the last sorted member. -/
theorem payload_last_member_ids_witness :
    ∃ lastm : Msg, (sortById [partA, partB]).getLast? = some lastm ∧
      (buildPayload ("@news".data) [partA, partB]
        (List.cons_ne_nil partA [partB])).message_id = lastm.id ∧
      (buildPayload ("@news".data) [partA, partB]
        (List.cons_ne_nil partA [partB])).from_channel_id = lastm.chat_id :=
  payload_last_member_ids ("@news".data) [partB, partA] [partA, partB]
    (by decide) (List.cons_ne_nil partA [partB])

/-- Claim C6: the payload's `text` is the in-order concatenation of the
members' texts with absent or empty text contributing nothing, and on
the key-55 scenario the grouper emits one post [11, 12] whose payload
text is "Part APart B" with `message_id` 12. -/
theorem payload_text_concat :
    (∀ (channel : List Char) (msgs : List Msg) (h : msgs ≠ []),
      (buildPayload channel msgs h).text =
        (msgs.map fun m => m.text.getD []).flatten) ∧
    groupMessages [partA, partB] = [[partA, partB]] ∧
    (buildPayload ("@news".data) [partA, partB]
      (List.cons_ne_nil partA [partB])).text = ("Part APart B".data) ∧
    (buildPayload ("@news".data) [partA, partB]
      (List.cons_ne_nil partA [partB])).message_id = 12 :=
  ⟨fun _ _ _ => rfl, by decide, by decide, by decide⟩

/-- Witness for C6: the concatenation equation evaluated on a concrete
single-member post. -/
theorem payload_text_concat_witness :
    (buildPayload ("@news".data) [partA] (List.cons_ne_nil partA [])).text =
      ("Part A".data) :=
  (payload_text_concat.1 ("@news".data) [partA] (List.cons_ne_nil partA [])).trans
    (by decide)

/-- Claim C4, counterexample to the claim as stated: on a post whose
concatenated text is empty, the caption is not the attribution line
alone — `_build_payload` appends the blank-line separator
unconditionally (only the unused `format_caption` helper omits it). -/
theorem empty_caption_cex :
    (buildPayload ("@news".data) [emptyTextMsg]
      (List.cons_ne_nil emptyTextMsg [])).text = [] ∧
    (buildPayload ("@news".data) [emptyTextMsg]
      (List.cons_ne_nil emptyTextMsg [])).caption ≠
      captionHeader ("@news".data) [emptyTextMsg]
        (List.cons_ne_nil emptyTextMsg []) := by
  decide

/-- Claim C4 as amended: when the concatenated member text is empty the
caption is the attribution line followed by the blank-line separator;
the translated body is empty but the separator is not omitted. -/
theorem empty_caption_amended (channel : List Char) (msgs : List Msg)
    (h : msgs ≠ []) (htext : (msgs.map fun m => m.text.getD []).flatten = []) :
    (buildPayload channel msgs h).caption =
      captionHeader channel msgs h ++ ['\n', '\n'] := by
  simp only [buildPayload]
  rw [htext]
  rfl

/-- Witness for C4 (amended): evaluated on the absent-text message. -/
theorem empty_caption_amended_witness :
    (buildPayload ("@news".data) [emptyTextMsg]
      (List.cons_ne_nil emptyTextMsg [])).caption =
      captionHeader ("@news".data) [emptyTextMsg]
        (List.cons_ne_nil emptyTextMsg []) ++ ['\n', '\n'] :=
  empty_caption_amended ("@news".data) [emptyTextMsg]
    (List.cons_ne_nil emptyTextMsg []) (by decide)

/-! ### Scanner decomposition lemmas -/

theorem isPrefixOf_decomp :
    ∀ (d s : List Char), List.isPrefixOf d s = true → s = d ++ s.drop d.length := by
  intro d
  induction d with
  | nil => intro s _; simp
  | cons a as ih =>
    intro s h
    match s with
    | [] => simp [List.isPrefixOf] at h
    | b :: bs =>
      simp only [List.isPrefixOf, Bool.and_eq_true, beq_iff_eq] at h
      obtain ⟨h1, h2⟩ := h
      subst h1
      simpa using ih bs h2

theorem splitUntil_decomp :
    ∀ (stop : Char) (s a b : List Char),
      splitUntil stop s = some (a, b) → s = a ++ stop :: b := by
  intro stop s
  induction s with
  | nil => intro a b h; simp [splitUntil] at h
  | cons c rest ih =>
    intro a b h
    rw [splitUntil] at h
    by_cases hc : c = stop
    · rw [if_pos hc] at h
      simp only [Option.some.injEq, Prod.mk.injEq] at h
      obtain ⟨ha, hb⟩ := h
      rw [← ha, ← hb, hc]
      rfl
    · rw [if_neg hc] at h
      cases hsp : splitUntil stop rest with
      | none => rw [hsp] at h; simp at h
      | some p =>
        obtain ⟨a2, b2⟩ := p
        rw [hsp] at h
        simp only [Option.some.injEq, Prod.mk.injEq] at h
        obtain ⟨ha, hb⟩ := h
        rw [← ha, ← hb, List.cons_append, ih a2 b2 hsp]

theorem tryLink_decomp (s label url r : List Char)
    (h : tryLink s = some (label, url, r)) :
    s = label ++ ']' :: '(' :: url ++ ')' :: r := by
  rw [tryLink] at h
  split at h
  · simp at h
  · next lab r1 hsp =>
    split at h
    · simp at h
    · next hl =>
      split at h
      · next r2 =>
        split at h
        · simp at h
        · next u r3 hsp2 =>
          split at h
          · simp at h
          · next hu =>
            simp only [Option.some.injEq, Prod.mk.injEq] at h
            obtain ⟨h1, h2, h3⟩ := h
            subst h1
            subst h2
            subst h3
            have e1 := splitUntil_decomp ']' s lab _ hsp
            have e2 := splitUntil_decomp ')' r2 u r3 hsp2
            rw [e1, e2]
            simp
      · simp at h

theorem findLink_decomp :
    ∀ (s b label url r : List Char),
      findLink s = some (b, label, url, r) →
      s = b ++ '[' :: label ++ ']' :: '(' :: url ++ ')' :: r := by
  intro s
  induction s with
  | nil => intro b label url r h; simp [findLink] at h
  | cons c rest ih =>
    intro b label url r h
    rw [findLink] at h
    by_cases hc : c = '['
    · rw [if_pos hc] at h
      cases htl : tryLink rest with
      | some p =>
        obtain ⟨lab, u, rr⟩ := p
        rw [htl] at h
        obtain ⟨rfl, rfl, rfl, rfl⟩ := by simpa using h
        have := tryLink_decomp rest lab u rr htl
        rw [hc, this]
        simp
      | none =>
        rw [htl] at h
        cases hfl : findLink rest with
        | none => rw [hfl] at h; exact absurd h (by simp)
        | some q =>
          obtain ⟨b2, lab, u, rr⟩ := q
          rw [hfl] at h
          obtain ⟨rfl, rfl, rfl, rfl⟩ := by simpa using h
          simpa using ih b2 lab u rr hfl
    · rw [if_neg hc] at h
      cases hfl : findLink rest with
      | none => rw [hfl] at h; exact absurd h (by simp)
      | some q =>
        obtain ⟨b2, lab, u, rr⟩ := q
        rw [hfl] at h
        obtain ⟨rfl, rfl, rfl, rfl⟩ := by simpa using h
        simpa using ih b2 lab u rr hfl

theorem findLink_length (s b label url r : List Char)
    (h : findLink s = some (b, label, url, r)) : r.length < s.length := by
  have := findLink_decomp s b label url r h
  subst this
  simp
  omega

/-! ### Fuel-irrelevance and step equations for the scanners -/

theorem findClose_decomp (d : List Char) :
    ∀ (t content after : List Char),
      findClose d t = some (content, after) →
      t = content ++ d ++ after ∧ content ≠ [] := by
  intro t
  induction t with
  | nil => intro content after h; simp [findClose] at h
  | cons c rest ih =>
    intro content after h
    rw [findClose] at h
    by_cases hn : c = '\n'
    · rw [if_pos hn] at h; simp at h
    · rw [if_neg hn] at h
      by_cases hp : List.isPrefixOf d rest = true
      · rw [if_pos hp] at h
        simp only [Option.some.injEq, Prod.mk.injEq] at h
        obtain ⟨h1, h2⟩ := h
        rw [← h1, ← h2]
        refine ⟨?_, by simp⟩
        have := isPrefixOf_decomp d rest hp
        simpa using congrArg (c :: ·) this
      · rw [if_neg hp] at h
        cases hfc : findClose d rest with
        | none => rw [hfc] at h; simp at h
        | some p =>
          obtain ⟨c2, a2⟩ := p
          rw [hfc] at h
          simp only [Option.some.injEq, Prod.mk.injEq] at h
          obtain ⟨h1, h2⟩ := h
          obtain ⟨e1, e2⟩ := ih c2 a2 hfc
          rw [← h1, ← h2]
          refine ⟨by simpa using congrArg (c :: ·) e1, by simp⟩

theorem findClose_length (d t content after : List Char)
    (h : findClose d t = some (content, after)) : after.length < t.length := by
  obtain ⟨h1, h2⟩ := findClose_decomp d t content after h
  rw [h1]
  simp only [List.length_append]
  have : content.length ≥ 1 := List.length_pos.2 h2
  omega

theorem linkPhaseF_fuel :
    ∀ (f1 f2 : Nat) (s : List Char), s.length ≤ f1 → s.length ≤ f2 →
      linkPhaseF f1 s = linkPhaseF f2 s := by
  intro f1
  induction f1 with
  | zero =>
    intro f2 s h1 _
    have : s = [] := List.length_eq_zero.1 (Nat.le_zero.1 h1)
    subst this
    cases f2 with
    | zero => rfl
    | succ m => simp [linkPhaseF, findLink]
  | succ n ih =>
    intro f2 s h1 h2
    cases f2 with
    | zero =>
      have : s = [] := List.length_eq_zero.1 (Nat.le_zero.1 h2)
      subst this
      simp [linkPhaseF, findLink]
    | succ m =>
      rw [linkPhaseF, linkPhaseF]
      cases hfl : findLink s with
      | none => rfl
      | some q =>
        obtain ⟨b, label, url, r⟩ := q
        have hr := findLink_length s b label url r hfl
        dsimp only
        rw [ih m r (by omega) (by omega)]

theorem linkPhase_none (s : List Char) (h : findLink s = none) :
    linkPhase s = escapeSpecial s := by
  rw [linkPhase]
  cases s with
  | nil => rfl
  | cons c rest => simp [linkPhaseF, h]

theorem linkPhase_some (s b label url r : List Char)
    (h : findLink s = some (b, label, url, r)) :
    linkPhase s =
      escapeSpecial b ++
        '[' :: (escapeSpecial label ++ ']' :: '(' :: (url ++ ')' :: linkPhase r)) := by
  rw [linkPhase]
  cases s with
  | nil => simp [findLink] at h
  | cons c rest =>
    rw [show (c :: rest).length = rest.length + 1 from rfl, linkPhaseF, h]
    have hr := findLink_length (c :: rest) b label url r h
    dsimp only
    rw [linkPhase, linkPhaseF_fuel rest.length r.length r (by simpa using Nat.lt_succ_iff.1 hr) (le_refl _)]

theorem linksF_fuel :
    ∀ (f1 f2 : Nat) (s : List Char), s.length ≤ f1 → s.length ≤ f2 →
      linksF f1 s = linksF f2 s := by
  intro f1
  induction f1 with
  | zero =>
    intro f2 s h1 _
    have : s = [] := List.length_eq_zero.1 (Nat.le_zero.1 h1)
    subst this
    cases f2 with
    | zero => rfl
    | succ m => simp [linksF, findLink]
  | succ n ih =>
    intro f2 s h1 h2
    cases f2 with
    | zero =>
      have : s = [] := List.length_eq_zero.1 (Nat.le_zero.1 h2)
      subst this
      simp [linksF, findLink]
    | succ m =>
      rw [linksF, linksF]
      cases hfl : findLink s with
      | none => rfl
      | some q =>
        obtain ⟨b, label, url, r⟩ := q
        have hr := findLink_length s b label url r hfl
        dsimp only
        rw [ih m r (by omega) (by omega)]

theorem links_none (s : List Char) (h : findLink s = none) : links s = [] := by
  rw [links]
  cases s with
  | nil => rfl
  | cons c rest => simp [linksF, h]

theorem links_some (s b label url r : List Char)
    (h : findLink s = some (b, label, url, r)) :
    links s = (label, url) :: links r := by
  rw [links]
  cases s with
  | nil => simp [findLink] at h
  | cons c rest =>
    rw [show (c :: rest).length = rest.length + 1 from rfl, linksF, h]
    have hr := findLink_length (c :: rest) b label url r h
    dsimp only
    rw [links, linksF_fuel rest.length r.length r (by simpa using Nat.lt_succ_iff.1 hr) (le_refl _)]

theorem subEmphF_fuel (d rep : List Char) :
    ∀ (f1 f2 : Nat) (s : List Char), s.length ≤ f1 → s.length ≤ f2 →
      subEmphF d rep f1 s = subEmphF d rep f2 s := by
  intro f1
  induction f1 with
  | zero =>
    intro f2 s h1 _
    have : s = [] := List.length_eq_zero.1 (Nat.le_zero.1 h1)
    subst this
    cases f2 <;> rfl
  | succ n ih =>
    intro f2 s h1 h2
    cases s with
    | nil => cases f2 <;> rfl
    | cons c rest =>
      cases f2 with
      | zero => simp at h2
      | succ m =>
        rw [subEmphF, subEmphF]
        by_cases hp : List.isPrefixOf d (c :: rest) = true
        · rw [if_pos hp, if_pos hp]
          cases hfc : findClose d ((c :: rest).drop d.length) with
          | none =>
            have hr : rest.length ≤ n := by simpa using h1
            have hr2 : rest.length ≤ m := by simpa using h2
            rw [ih m rest hr hr2]
          | some p =>
            obtain ⟨content, after⟩ := p
            have hlt := findClose_length d _ content after hfc
            have hdrop : ((c :: rest).drop d.length).length ≤ (c :: rest).length := by
              simp
            have hcons : (c :: rest).length = rest.length + 1 := rfl
            dsimp only
            rw [ih m after (by omega) (by omega)]
        · rw [if_neg hp, if_neg hp]
          have hr : rest.length ≤ n := by simpa using h1
          have hr2 : rest.length ≤ m := by simpa using h2
          rw [ih m rest hr hr2]

theorem subEmph_nil (d rep : List Char) : subEmph d rep [] = [] := rfl

theorem subEmph_cons_match (d rep : List Char) (c : Char) (rest content after : List Char)
    (hp : List.isPrefixOf d (c :: rest) = true)
    (hfc : findClose d ((c :: rest).drop d.length) = some (content, after)) :
    subEmph d rep (c :: rest) = rep ++ content ++ rep ++ subEmph d rep after := by
  rw [subEmph, show (c :: rest).length = rest.length + 1 from rfl, subEmphF, if_pos hp, hfc]
  have hlt := findClose_length d _ content after hfc
  have hdrop : ((c :: rest).drop d.length).length ≤ (c :: rest).length := by
    simp
  have hcons : (c :: rest).length = rest.length + 1 := rfl
  have hafter : after.length ≤ rest.length := by omega
  dsimp only
  rw [subEmph, subEmphF_fuel d rep rest.length after.length after hafter (le_refl _)]

theorem subEmph_cons_nomatch (d rep : List Char) (c : Char) (rest : List Char)
    (h : List.isPrefixOf d (c :: rest) = false ∨
      findClose d ((c :: rest).drop d.length) = none) :
    subEmph d rep (c :: rest) = c :: subEmph d rep rest := by
  rw [subEmph, show (c :: rest).length = rest.length + 1 from rfl, subEmphF]
  rcases h with h | h
  · rw [if_neg (by simp [h]), subEmph]
  · by_cases hp : List.isPrefixOf d (c :: rest) = true
    · rw [if_pos hp, h, subEmph]
    · rw [if_neg hp, subEmph]

/-- The four style rules whose replacement reproduces the match leave
every string unchanged. -/
theorem subEmph_self (d : List Char) : ∀ s : List Char, subEmph d d s = s := by
  have main : ∀ (n : Nat) (s : List Char), s.length ≤ n → subEmph d d s = s := by
    intro n
    induction n with
    | zero =>
      intro s h
      have : s = [] := List.length_eq_zero.1 (Nat.le_zero.1 h)
      subst this
      rfl
    | succ n ih =>
      intro s h
      cases s with
      | nil => rfl
      | cons c rest =>
        by_cases hp : List.isPrefixOf d (c :: rest) = true
        · cases hfc : findClose d ((c :: rest).drop d.length) with
          | none =>
            rw [subEmph_cons_nomatch d d c rest (Or.inr hfc),
              ih rest (by simpa using h)]
          | some p =>
            obtain ⟨content, after⟩ := p
            rw [subEmph_cons_match d d c rest content after hp hfc]
            have e1 := isPrefixOf_decomp d (c :: rest) hp
            obtain ⟨e2, _⟩ := findClose_decomp d _ content after hfc
            have hlt := findClose_length d _ content after hfc
            have hdrop : ((c :: rest).drop d.length).length ≤ (c :: rest).length := by
              simp
            have hcons : (c :: rest).length = rest.length + 1 := rfl
            rw [ih after (by omega)]
            rw [e1, e2]
            simp [List.append_assoc]
        · rw [subEmph_cons_nomatch d d c rest (Or.inl (Bool.eq_false_iff.2 hp)),
            ih rest (by simpa using h)]
  exact fun s => main s.length s (le_refl _)

/-! ### URL preservation through the pipeline -/

theorem mem_links_url_infix :
    ∀ (n : Nat) (s : List Char), s.length ≤ n → ∀ label url : List Char,
      (label, url) ∈ links s → ∃ x y, linkPhase s = x ++ url ++ y := by
  intro n
  induction n with
  | zero =>
    intro s h label url hmem
    have : s = [] := List.length_eq_zero.1 (Nat.le_zero.1 h)
    subst this
    rw [links_none [] rfl] at hmem
    simp at hmem
  | succ n ih =>
    intro s hlen label url hmem
    cases hfl : findLink s with
    | none =>
      rw [links_none s hfl] at hmem
      simp at hmem
    | some q =>
      obtain ⟨b, lab, u, r⟩ := q
      rw [links_some s b lab u r hfl] at hmem
      rw [linkPhase_some s b lab u r hfl]
      rcases List.mem_cons.1 hmem with h1 | h1
      · simp only [Prod.mk.injEq] at h1
        obtain ⟨_, h2⟩ := h1
        subst h2
        refine ⟨escapeSpecial b ++ '[' :: escapeSpecial lab ++ [']', '('],
          ')' :: linkPhase r, ?_⟩
        simp
      · have hr := findLink_length s b lab u r hfl
        obtain ⟨x, y, hxy⟩ := ih r (by omega) label url h1
        refine ⟨escapeSpecial b ++ '[' :: escapeSpecial lab ++ ']' :: '(' :: (u ++ [')']) ++ x,
          y, ?_⟩
        rw [hxy]
        simp

theorem delStar_refl : ∀ s : List Char, DelStar s s := by
  intro s
  induction s with
  | nil => exact DelStar.nil
  | cons c rest ih => exact DelStar.keep c ih

theorem delStar_append {a a2 b b2 : List Char}
    (h1 : DelStar a a2) (h2 : DelStar b b2) : DelStar (a ++ b) (a2 ++ b2) := by
  induction h1 with
  | nil => simpa using h2
  | keep c _ ih => exact DelStar.keep c ih
  | drop _ ih => exact DelStar.drop ih

theorem delStar_subEmph_bold :
    ∀ (n : Nat) (s : List Char), s.length ≤ n →
      DelStar s (subEmph ['*', '*'] ['*'] s) := by
  intro n
  induction n with
  | zero =>
    intro s h
    have : s = [] := List.length_eq_zero.1 (Nat.le_zero.1 h)
    subst this
    exact DelStar.nil
  | succ n ih =>
    intro s hlen
    cases s with
    | nil => exact DelStar.nil
    | cons c rest =>
      by_cases hp : List.isPrefixOf ['*', '*'] (c :: rest) = true
      · cases hfc : findClose ['*', '*'] ((c :: rest).drop (['*', '*'] : List Char).length) with
        | none =>
          rw [subEmph_cons_nomatch _ _ c rest (Or.inr hfc)]
          exact DelStar.keep c (ih rest (by simpa using hlen))
        | some p =>
          obtain ⟨content, after⟩ := p
          rw [subEmph_cons_match _ _ c rest content after hp hfc]
          have e1 := isPrefixOf_decomp ['*', '*'] (c :: rest) hp
          obtain ⟨e2, _⟩ := findClose_decomp ['*', '*'] _ content after hfc
          have hlt := findClose_length ['*', '*'] _ content after hfc
          have hdrop : ((c :: rest).drop (['*', '*'] : List Char).length).length ≤ (c :: rest).length := by
            simp
            omega
          have hcons : (c :: rest).length = rest.length + 1 := rfl
          have hafter : DelStar after (subEmph ['*', '*'] ['*'] after) := ih after (by omega)
          have h21 : DelStar ['*', '*'] ['*'] := DelStar.drop (delStar_refl ['*'])
          have big : DelStar (['*', '*'] ++ (content ++ (['*', '*'] ++ after)))
              (['*'] ++ (content ++ (['*'] ++ subEmph ['*', '*'] ['*'] after))) :=
            delStar_append h21 (delStar_append (delStar_refl content) (delStar_append h21 hafter))
          have eshape : c :: rest = ['*', '*'] ++ (content ++ (['*', '*'] ++ after)) := by
            rw [e1, e2]
            simp
          rw [eshape]
          simpa [List.append_assoc] using big
      · rw [subEmph_cons_nomatch _ _ c rest (Or.inl (Bool.eq_false_iff.2 hp))]
        exact DelStar.keep c (ih rest (by simpa using hlen))

theorem delStar_keep_prefix :
    ∀ (u : List Char) {b t : List Char}, DelStar (u ++ b) t →
      (∀ c ∈ u, c ≠ '*') → ∃ b2, t = u ++ b2 ∧ DelStar b b2 := by
  intro u
  induction u with
  | nil => intro b t h _; exact ⟨t, rfl, h⟩
  | cons c u0 ih =>
    intro b t h hu
    rw [List.cons_append] at h
    cases h with
    | keep _ h0 =>
      obtain ⟨b2, ht, hd⟩ := ih h0 (fun x hx => hu x (List.mem_cons_of_mem _ hx))
      exact ⟨b2, by rw [ht, List.cons_append], hd⟩
    | drop h0 =>
      exact absurd rfl (hu '*' (List.mem_cons_self _ _))

theorem delStar_infix :
    ∀ (a : List Char) {u b t : List Char}, DelStar (a ++ u ++ b) t →
      (∀ c ∈ u, c ≠ '*') → ∃ x y, t = x ++ u ++ y := by
  intro a
  induction a with
  | nil =>
    intro u b t h hu
    rw [List.nil_append] at h
    obtain ⟨b2, ht, _⟩ := delStar_keep_prefix u h hu
    exact ⟨[], b2, by simpa using ht⟩
  | cons c a0 ih =>
    intro u b t h hu
    rw [List.cons_append, List.cons_append] at h
    cases h with
    | keep _ h0 =>
      obtain ⟨x, y, ht⟩ := ih (by simpa using h0) hu
      exact ⟨c :: x, y, by simp [ht, List.append_assoc]⟩
    | drop h0 =>
      obtain ⟨x, y, ht⟩ := ih (by simpa using h0) hu
      exact ⟨x, y, ht⟩

/-- Claim C3, counterexample to the claim as stated: the input
`[x](**y**)` has one link span with URL `**y**`, yet that URL appears
nowhere in the translated output — the URL is copied verbatim by the
link pass, but the later bold rule rewrites `**y**` to `*y*` inside
it. -/
theorem url_preserved_cex :
    (("x".data), ("**y**".data)) ∈ links boldUrlText ∧
      ¬ (("**y**".data) <:+: escape_markdown_v2 boldUrlText) := by
  decide

/-- Claim C3 as amended: the URL of every link span is emitted verbatim
by the link-aware pass, and it survives to the final output unchanged
provided the mention-protection pass leaves the input unchanged and the
URL contains no `*` (the bold rule only deletes stars, and mention
protection only rewrites `@`-runs).  The `hdom` hypothesis keeps the
input inside the character domain where the modelled `\w` agrees with
Python's Unicode `\w`, so `hmention` means the same for the model and
the program. -/
theorem url_preserved_amended (text label url : List Char)
    (hdom : text.all wModeled = true)
    (hmention : escape_telegram_usernames text = text)
    (hmem : (label, url) ∈ links text)
    (hstar : ∀ c ∈ url, c ≠ '*') :
    url <:+: escape_markdown_v2 text := by
  obtain ⟨x, y, hxy⟩ :=
    mem_links_url_infix text.length text (le_refl _) label url hmem
  rw [escape_markdown_v2, hmention, subEmph_self, subEmph_self, subEmph_self,
    subEmph_self, hxy]
  have hdel : DelStar (linkPhase text) (subEmph ['*', '*'] ['*'] (linkPhase text)) :=
    delStar_subEmph_bold (linkPhase text).length (linkPhase text) (le_refl _)
  rw [hxy] at hdel
  obtain ⟨x2, y2, ht⟩ := delStar_infix x hdel hstar
  exact ⟨x2, y2, ht.symm⟩

/-- Witness for C3 (amended): the star-free URL of `[ab](cd)` survives
the whole translation. -/
theorem url_preserved_witness :
    ("cd".data) <:+: escape_markdown_v2 plainLinkText :=
  url_preserved_amended plainLinkText ("ab".data) ("cd".data) (by decide)
    (by decide) (by decide) (by decide)

/-! ### Mention-protection lemmas -/

theorem escapeUsernamesF_fuel :
    ∀ (f1 f2 : Nat) (s : List Char), s.length ≤ f1 → s.length ≤ f2 →
      escapeUsernamesF f1 s = escapeUsernamesF f2 s := by
  intro f1
  induction f1 with
  | zero =>
    intro f2 s h1 _
    have : s = [] := List.length_eq_zero.1 (Nat.le_zero.1 h1)
    subst this
    cases f2 <;> rfl
  | succ n ih =>
    intro f2 s h1 h2
    cases s with
    | nil => cases f2 <;> rfl
    | cons c rest =>
      cases f2 with
      | zero => simp at h2
      | succ m =>
        rw [escapeUsernamesF, escapeUsernamesF]
        have hr : rest.length ≤ n := by simpa using h1
        have hr2 : rest.length ≤ m := by simpa using h2
        by_cases hc : c = '@'
        · rw [if_pos hc, if_pos hc]
          have hd : (rest.dropWhile isWordChar).length ≤ rest.length :=
            (List.dropWhile_sublist _).length_le
          rw [ih m (rest.dropWhile isWordChar) (by omega) (by omega)]
        · rw [if_neg hc, if_neg hc, ih m rest hr hr2]

theorem takeWhile_append_stop (p : Char → Bool) (b : List Char)
    (hb : ∀ c, b.head? = some c → p c = false) :
    ∀ l : List Char, (l ++ b).takeWhile p = l.takeWhile p := by
  intro l
  induction l with
  | nil =>
    cases b with
    | nil => rfl
    | cons c bs => simp [List.takeWhile_cons, hb c rfl]
  | cons a l0 ih =>
    by_cases ha : p a = true
    · simp [List.takeWhile_cons, ha, ih]
    · simp [List.takeWhile_cons, ha]

theorem dropWhile_append_stop (p : Char → Bool) (b : List Char)
    (hb : ∀ c, b.head? = some c → p c = false) :
    ∀ l : List Char, (l ++ b).dropWhile p = l.dropWhile p ++ b := by
  intro l
  induction l with
  | nil =>
    cases b with
    | nil => rfl
    | cons c bs => simp [List.dropWhile_cons, hb c rfl]
  | cons a l0 ih =>
    by_cases ha : p a = true
    · simp [List.dropWhile_cons, ha, ih]
    · simp [List.dropWhile_cons, ha]

theorem escapeUsernames_append (b : List Char)
    (hb : ∀ c, b.head? = some c → isWordChar c = false) :
    ∀ (f : Nat) (a : List Char), (a ++ b).length ≤ f →
      escapeUsernamesF f (a ++ b) =
        escapeUsernamesF f a ++ escape_telegram_usernames b := by
  intro f
  induction f with
  | zero =>
    intro a h
    have h2 : a ++ b = [] := List.length_eq_zero.1 (Nat.le_zero.1 h)
    obtain ⟨ha, hb2⟩ := List.append_eq_nil.1 h2
    subst ha
    subst hb2
    rfl
  | succ n ih =>
    intro a h
    cases a with
    | nil =>
      rw [List.nil_append]
      show escapeUsernamesF (n + 1) b = [] ++ escape_telegram_usernames b
      rw [List.nil_append, escape_telegram_usernames]
      exact escapeUsernamesF_fuel (n + 1) b.length b (by simpa using h) (le_refl _)
    | cons c a0 =>
      rw [List.cons_append, escapeUsernamesF, escapeUsernamesF]
      have hlen : (a0 ++ b).length ≤ n := by simpa using h
      by_cases hc : c = '@'
      · rw [if_pos hc, if_pos hc]
        rw [takeWhile_append_stop isWordChar b hb a0,
          dropWhile_append_stop isWordChar b hb a0]
        have hd : (a0.dropWhile isWordChar ++ b).length ≤ n := by
          have : (a0.dropWhile isWordChar).length ≤ a0.length :=
            (List.dropWhile_sublist _).length_le
          simp at hlen ⊢
          omega
        rw [ih (a0.dropWhile isWordChar) hd]
        by_cases hu : '_' ∈ a0.takeWhile isWordChar
        · simp only [if_pos hu]
          simp [List.append_assoc]
        · simp only [if_neg hu]
          simp [List.append_assoc]
      · rw [if_neg hc, if_neg hc, ih a0 hlen, List.cons_append]

theorem takeWhile_all_word (p : Char → Bool) (post : List Char)
    (hpost : ∀ c, post.head? = some c → p c = false) :
    ∀ run : List Char, run.all p = true →
      (run ++ post).takeWhile p = run ∧ (run ++ post).dropWhile p = post := by
  intro run
  induction run with
  | nil =>
    intro _
    constructor
    · cases post with
      | nil => rfl
      | cons c bs => simp [List.takeWhile_cons, hpost c rfl]
    · cases post with
      | nil => rfl
      | cons c bs => simp [List.dropWhile_cons, hpost c rfl]
  | cons a r0 ih =>
    intro hall
    simp only [List.all_cons, Bool.and_eq_true] at hall
    obtain ⟨ha, hall0⟩ := hall
    obtain ⟨ht, hd⟩ := ih hall0
    constructor
    · simp [List.takeWhile_cons, ha, ht]
    · simp [List.dropWhile_cons, ha, hd]

theorem mentionFree_fix :
    ∀ (f : Nat) (s : List Char), s.length ≤ f → mentionFreeF f s = true →
      escapeUsernamesF f s = s := by
  intro f
  induction f with
  | zero =>
    intro s h _
    have : s = [] := List.length_eq_zero.1 (Nat.le_zero.1 h)
    subst this
    rfl
  | succ n ih =>
    intro s hlen hmf
    cases s with
    | nil => rfl
    | cons c rest =>
      rw [escapeUsernamesF]
      rw [mentionFreeF] at hmf
      have hr : rest.length ≤ n := by simpa using hlen
      by_cases hc : c = '@'
      · rw [if_pos hc] at hmf ⊢
        by_cases hu : '_' ∈ rest.takeWhile isWordChar
        · rw [if_pos hu] at hmf; simp at hmf
        · rw [if_neg hu] at hmf
          rw [if_neg hu]
          have hd : (rest.dropWhile isWordChar).length ≤ n :=
            le_trans (List.dropWhile_sublist _).length_le hr
          rw [ih (rest.dropWhile isWordChar) hd hmf]
          rw [hc]
          simp [List.takeWhile_append_dropWhile]
      · rw [if_neg hc] at hmf ⊢
        rw [ih rest hr hmf]

/-- Claim C8: every maximal `@`-mention token whose username run
contains an underscore is rewritten with each underscore
backslash-escaped, while the text before and after the token is
processed independently by the same pass; text with no such token is
left completely unchanged; and on `@john_doe hello` exactly the
mention's underscore is escaped.  The `wModeled` hypotheses restrict
the surrounding text (the run's word characters lie in the domain by
construction) to the character domain where the modelled `\w` agrees
with Python's Unicode `\w`, so both parts say of the model exactly
what holds of the program there. -/
theorem mention_underscores_escaped :
    (∀ pre run post : List Char,
      pre.all wModeled = true → post.all wModeled = true →
      run.all isWordChar = true → '_' ∈ run →
      (∀ c, post.head? = some c → isWordChar c = false) →
      escape_telegram_usernames (pre ++ '@' :: (run ++ post)) =
        escape_telegram_usernames pre ++
          '@' :: (escapeUnderscores run ++ escape_telegram_usernames post)) ∧
    (∀ s : List Char, s.all wModeled = true → mentionFree s = true →
      escape_telegram_usernames s = s) ∧
    escape_telegram_usernames ("@john_doe hello".data) =
      ("@john\\_doe hello".data) := by
  refine ⟨?_, ?_, by decide⟩
  · intro pre run post _ _ hrun hmem hpost
    have hb : ∀ c, ('@' :: (run ++ post)).head? = some c → isWordChar c = false := by
      intro c hc
      simp only [List.head?_cons, Option.some.injEq] at hc
      rw [← hc]
      decide
    rw [escape_telegram_usernames,
      escapeUsernames_append ('@' :: (run ++ post)) hb _ pre (le_refl _)]
    congr 1
    · exact escapeUsernamesF_fuel _ _ pre (by simp) (le_refl _)
    · rw [escape_telegram_usernames,
        show ('@' :: (run ++ post)).length = (run ++ post).length + 1 from rfl,
        escapeUsernamesF, if_pos rfl]
      obtain ⟨ht, hd⟩ := takeWhile_all_word isWordChar post hpost run hrun
      rw [ht, hd, if_pos hmem,
        escapeUsernamesF_fuel _ post.length post (by simp) (le_refl _)]
      rw [escape_telegram_usernames]
      simp
  · intro s _ hs
    exact mentionFree_fix s.length s (le_refl _) hs

/-- Witness for C8: the general mention equation instantiated on
`@john_doe hello` (empty prefix, run `john_doe`, suffix ` hello`). -/
theorem mention_underscores_escaped_witness :
    escape_telegram_usernames ([] ++ '@' :: (("john_doe".data) ++ (" hello".data))) =
      escape_telegram_usernames [] ++
        '@' :: (escapeUnderscores ("john_doe".data) ++
          escape_telegram_usernames (" hello".data)) :=
  mention_underscores_escaped.1 [] ("john_doe".data) (" hello".data)
    (by decide) (by decide) (by decide) (by decide) (by decide)

/-! ### Idempotence on markup-free strings -/

theorem escapeUsernames_no_underscore :
    ∀ (f : Nat) (s : List Char), s.length ≤ f → '_' ∉ s →
      escapeUsernamesF f s = s := by
  intro f
  induction f with
  | zero =>
    intro s h _
    have : s = [] := List.length_eq_zero.1 (Nat.le_zero.1 h)
    subst this
    rfl
  | succ n ih =>
    intro s hlen hu
    cases s with
    | nil => rfl
    | cons c rest =>
      rw [escapeUsernamesF]
      have hr : rest.length ≤ n := by simpa using hlen
      have hurest : '_' ∉ rest := fun hm => hu (List.mem_cons_of_mem _ hm)
      by_cases hc : c = '@'
      · rw [if_pos hc]
        have hrun : '_' ∉ rest.takeWhile isWordChar :=
          fun hm => hurest ((List.takeWhile_sublist _).subset hm)
        rw [if_neg hrun]
        have hd : (rest.dropWhile isWordChar).length ≤ n :=
          le_trans (List.dropWhile_sublist _).length_le hr
        have hud : '_' ∉ rest.dropWhile isWordChar :=
          fun hm => hurest ((List.dropWhile_sublist _).subset hm)
        rw [ih (rest.dropWhile isWordChar) hd hud, hc]
        simp [List.takeWhile_append_dropWhile]
      · rw [if_neg hc, ih rest hr hurest]

theorem findLink_none_no_bracket :
    ∀ s : List Char, '[' ∉ s → findLink s = none := by
  intro s
  induction s with
  | nil => intro _; rfl
  | cons c rest ih =>
    intro hb
    rw [findLink]
    have hc : ¬ (c = '[') := fun he => hb (he ▸ List.mem_cons_self _ _)
    rw [if_neg hc, ih fun hm => hb (List.mem_cons_of_mem _ hm)]

theorem escapeSpecial_fix :
    ∀ s : List Char, (∀ c ∈ s, isSpecial c = false) → escapeSpecial s = s := by
  intro s
  induction s with
  | nil => intro _; rfl
  | cons c rest ih =>
    intro h
    rw [escapeSpecial, h c (List.mem_cons_self _ _),
      ih fun c2 hc2 => h c2 (List.mem_cons_of_mem _ hc2)]
    rfl

theorem subEmph_fix_head_not_mem (c0 : Char) (d rep : List Char) :
    ∀ (f : Nat) (s : List Char), s.length ≤ f → c0 ∉ s →
      subEmphF (c0 :: d) rep f s = s := by
  intro f
  induction f with
  | zero =>
    intro s h _
    have : s = [] := List.length_eq_zero.1 (Nat.le_zero.1 h)
    subst this
    rfl
  | succ n ih =>
    intro s hlen hm
    cases s with
    | nil => rfl
    | cons c rest =>
      rw [subEmphF]
      have hne : ¬ (c0 == c) = true := by
        simp only [beq_iff_eq]
        exact fun he => hm (he ▸ List.mem_cons_self _ _)
      rw [if_neg (by simp [List.isPrefixOf, hne])]
      rw [ih rest (by simpa using hlen) fun h2 => hm (List.mem_cons_of_mem _ h2)]

theorem subEmph_fix (c0 : Char) (d rep : List Char) (s : List Char)
    (hm : c0 ∉ s) : subEmph (c0 :: d) rep s = s := by
  rw [subEmph]
  exact subEmph_fix_head_not_mem c0 d rep s.length s (le_refl _) hm

theorem escape_markdown_fix (s : List Char)
    (h : ∀ c ∈ s, isSpecial c = false) : escape_markdown_v2 s = s := by
  have hmem : ∀ c0 : Char, isSpecial c0 = true → c0 ∉ s :=
    fun c0 hc0 hm => by
      rw [h c0 hm] at hc0
      exact absurd hc0 (by simp)
  have hu : '_' ∉ s := hmem '_' (by decide)
  have hb : '[' ∉ s := hmem '[' (by decide)
  have hs : '*' ∉ s := hmem '*' (by decide)
  have ht : '~' ∉ s := hmem '~' (by decide)
  have hp : '|' ∉ s := hmem '|' (by decide)
  rw [escape_markdown_v2, escape_telegram_usernames,
    escapeUsernames_no_underscore s.length s (le_refl _) hu,
    linkPhase_none s (findLink_none_no_bracket s hb), escapeSpecial_fix s h,
    subEmph_fix '*' ['*'] ['*'] s hs,
    subEmph_fix '_' ['_'] ['_', '_'] s hu,
    subEmph_fix '_' [] ['_'] s hu,
    subEmph_fix '~' [] ['~'] s ht,
    subEmph_fix '|' ['|'] ['|', '|'] s hp]

/-- Claim C9, counterexample to the claim as stated: the two-character
string backslash-underscore is fully escaped and has no markup spans,
yet a second application of the translation re-escapes the underscore
and yields a different string. -/
theorem escape_idempotent_cex :
    fullyEscapedNoSpans escapedUnderscore = true ∧
      escape_markdown_v2 (escape_markdown_v2 escapedUnderscore) ≠
        escape_markdown_v2 escapedUnderscore := by
  decide

/-- Claim C9 as amended: the translation is idempotent on strings that
contain no markup-control character at all (on such strings it is the
identity); on a fully-escaped string that still contains control
characters, every application re-escapes them, so idempotence fails. -/
theorem escape_idempotent_amended (s : List Char)
    (h : ∀ c ∈ s, isSpecial c = false) :
    escape_markdown_v2 (escape_markdown_v2 s) = escape_markdown_v2 s := by
  rw [escape_markdown_fix s h]
  exact escape_markdown_fix s h

/-- Witness for C9 (amended): `hello @world` has no control characters
and translating it twice equals translating it once. -/
theorem escape_idempotent_witness :
    escape_markdown_v2 (escape_markdown_v2 plainText) = escape_markdown_v2 plainText :=
  escape_idempotent_amended plainText (by decide)
